import Mathlib

/-!
# Verification of ps2spi.c (PS/2 keyboard to SPI bridge firmware)

Shallow embedding of the core of `src/ps2spi.c`:

* the two 32-entry ring buffers (`ps2_scan_codes[]` with `ps2_buffer_out`,
  `ps2_buffer_in`, `ps2_scan_code_count`; and `key_codes[]` with
  `key_buffer_out`, `key_buffer_in`, `key_code_count`) and their access
  functions `ps2_recv`, `read_key`, `write_key`;
* the PS/2 receive state machine in `ISR(PCINT0_vect)`;
* the scan-code translation pipeline of the `main()` loop;
* the SPI host responder `ISR(USI_OVF_vect)`;
* the bit-banged transmitter `ps2_send` and the command helper
  `kbd_code_set`.

Hardware registers are modelled by explicit state passing: `PINB` samples
consumed by busy-wait loops become a list of byte samples, the blocking
receive stream of `ps2_recv_x` becomes a list of response bytes, and the
machine's 8-bit registers are `Nat` values reduced `% 256` where the C
code truncates.
-/

/-- `PS2_BUFF_SIZE` from the source: capacity of the PS/2 scan-code buffer. -/
def PS2_BUFF_SIZE : Nat := 32

/-- `KEY_BUFF_SIZE` from the source: capacity of the key-code output buffer. -/
def KEY_BUFF_SIZE : Nat := 32

/-- `PS2_CLOCK` mask `0b00001000` (PB3, the PS/2 clock line). -/
def PS2_CLOCK : Nat := 8

/-- `PS2_DATA` mask `0b00010000` (PB4, the PS/2 data line). -/
def PS2_DATA : Nat := 16

/-- `PS2_HK_ALTCODE` (0xF0): select alternate scan code set command. -/
def PS2_HK_ALTCODE : Nat := 0xf0

/-- `PS2_KH_ACK` (0xFA): keyboard acknowledge response. -/
def PS2_KH_ACK : Nat := 0xfa

/-- `PS2_KH_RESEND` (0xFE): keyboard resend response. -/
def PS2_KH_RESEND : Nat := 0xfe

/-- `PS2_LAST_CODE` (0x50): largest supported scan code position. -/
def PS2_LAST_CODE : Nat := 0x50

/-- One ring buffer: the source keeps each queue in four globals
(`*_codes[]` array, `*_count`, `*_buffer_out`, `*_buffer_in`); here they are
grouped into one record that the access functions thread explicitly. -/
structure KBuffer where
  buf : List Nat
  count : Nat
  bufOut : Nat
  bufIn : Nat
deriving DecidableEq, Repr

/-- `ps2_recv()`: non-blocking pop from the PS/2 scan-code buffer.
Returns `-1` when the buffer is empty, otherwise the byte at
`ps2_buffer_out`, decrementing the count and advancing the out index with
wraparound at `PS2_BUFF_SIZE`. -/
def ps2_recv (q : KBuffer) : Int × KBuffer :=
  if 0 < q.count then
    (Int.ofNat (q.buf.getD q.bufOut 0),
     { q with count := q.count - 1,
              bufOut := if q.bufOut + 1 = PS2_BUFF_SIZE then 0 else q.bufOut + 1 })
  else (-1, q)

/-- `read_key()`: non-blocking pop from the key-code output buffer; same
code shape as `ps2_recv` but over the `key_codes` buffer globals. -/
def read_key (q : KBuffer) : Int × KBuffer :=
  if 0 < q.count then
    (Int.ofNat (q.buf.getD q.bufOut 0),
     { q with count := q.count - 1,
              bufOut := if q.bufOut + 1 = KEY_BUFF_SIZE then 0 else q.bufOut + 1 })
  else (-1, q)

/-- `write_key(key_code)`: push onto the key-code output buffer. Returns
`-1` and leaves the buffer untouched when it is full, otherwise stores the
byte at `key_buffer_in`, increments the count and advances the in index
with wraparound. -/
def write_key (key_code : Nat) (q : KBuffer) : Int × KBuffer :=
  if q.count < KEY_BUFF_SIZE then
    (Int.ofNat key_code,
     { buf := q.buf.set q.bufIn key_code,
       count := q.count + 1,
       bufOut := q.bufOut,
       bufIn := if q.bufIn + 1 = KEY_BUFF_SIZE then 0 else q.bufIn + 1 })
  else (-1, q)

/-- Well-formedness of a ring buffer as maintained by the source: the
backing array has the fixed size, the count never exceeds it, the out
index is in range, and the in index is out+count modulo the size. -/
def wfBuf (q : KBuffer) : Prop :=
  q.buf.length = 32 ∧ q.count ≤ 32 ∧ q.bufOut < 32 ∧ q.bufIn = (q.bufOut + q.count) % 32

instance (q : KBuffer) : Decidable (wfBuf q) := by
  unfold wfBuf
  exact inferInstance

/-- Abstract view of a ring buffer: the FIFO list of stored entries,
oldest first. -/
def listOf (q : KBuffer) : List Nat :=
  (List.range q.count).map (fun i => q.buf.getD ((q.bufOut + i) % 32) 0)

theorem listOf_length (q : KBuffer) : (listOf q).length = q.count := by
  simp [listOf]

theorem getD_set_self (l : List Nat) (i : Nat) (a : Nat) (h : i < l.length) :
    (l.set i a).getD i 0 = a := by
  induction l generalizing i with
  | nil => simp at h
  | cons x xs ih =>
    cases i with
    | zero => simp
    | succ j =>
      simp only [List.set, List.getD, List.getElem?_cons_succ]
      exact ih j (by simpa using h)

theorem getD_set_ne (l : List Nat) (i j a : Nat) (h : i ≠ j) :
    (l.set i a).getD j 0 = l.getD j 0 := by
  induction l generalizing i j with
  | nil => simp
  | cons x xs ih =>
    cases i with
    | zero =>
      cases j with
      | zero => exact absurd rfl h
      | succ k => simp [List.getD]
    | succ i' =>
      cases j with
      | zero => simp [List.getD]
      | succ k =>
        simp only [List.set, List.getD, List.getElem?_cons_succ]
        exact ih i' k (by omega)

theorem map_range_congr (n : Nat) (f g : Nat → Nat) (h : ∀ i, i < n → f i = g i) :
    (List.range n).map f = (List.range n).map g := by
  induction n with
  | zero => simp
  | succ m ih =>
    rw [List.range_succ, List.map_append, List.map_append,
        ih (fun i hi => h i (by omega)), List.map_singleton, List.map_singleton,
        h m (by omega)]

theorem headD_cons_tail (l : List Nat) (h : l ≠ []) : (l.headD 0) :: l.tail = l := by
  cases l with
  | nil => exact absurd rfl h
  | cons x xs => rfl

/-- Correctness of the pop operation (`ps2_recv` and, by identical code,
`read_key`): on a well-formed non-empty buffer it returns the oldest
entry, the abstract list loses its head, and well-formedness persists. -/
theorem pop_spec (q : KBuffer) (h : wfBuf q) (hc : 0 < q.count) :
    (ps2_recv q).1 = Int.ofNat ((listOf q).headD 0) ∧
    listOf (ps2_recv q).2 = (listOf q).tail ∧
    wfBuf (ps2_recv q).2 ∧
    (ps2_recv q).2.count = q.count - 1 ∧
    (ps2_recv q).2.buf = q.buf := by
  obtain ⟨buf, cnt, out, inp⟩ := q
  obtain ⟨hlen, hcnt, hout, hin⟩ := h
  simp only at hlen hcnt hout hin hc
  obtain ⟨k, rfl⟩ : ∃ k, cnt = k + 1 := ⟨cnt - 1, by omega⟩
  have hwrap : (if out + 1 = PS2_BUFF_SIZE then 0 else out + 1) = (out + 1) % 32 := by
    simp only [PS2_BUFF_SIZE]
    split
    · omega
    · omega
  simp only [ps2_recv, hwrap, if_pos (Nat.succ_pos k), Nat.add_sub_cancel]
  refine ⟨?_, ?_, ⟨hlen, ?_, ?_, ?_⟩, ?_, ?_⟩
  · simp [listOf, List.range_succ_eq_map, Nat.mod_eq_of_lt hout]
  · simp only [listOf, List.range_succ_eq_map, List.map_cons, List.tail_cons, List.map_map]
    apply map_range_congr
    intro i _
    have harg : ((out + 1) % 32 + i) % 32 = (out + Nat.succ i) % 32 := by omega
    simp [Function.comp, harg]
  · show k ≤ 32
    omega
  · show (out + 1) % 32 < 32
    omega
  · show inp = ((out + 1) % 32 + k) % 32
    omega
  · trivial
  · trivial

/-- Correctness of the push operation `write_key`: on a well-formed
non-full buffer it appends the byte at the tail of the abstract list,
increments the count, and preserves well-formedness. -/
theorem push_spec (q : KBuffer) (c : Nat) (h : wfBuf q) (hc : q.count < 32) :
    (write_key c q).1 = Int.ofNat c ∧
    listOf (write_key c q).2 = listOf q ++ [c] ∧
    wfBuf (write_key c q).2 ∧
    (write_key c q).2.count = q.count + 1 := by
  obtain ⟨buf, cnt, out, inp⟩ := q
  obtain ⟨hlen, hcnt, hout, hin⟩ := h
  simp only at hlen hcnt hout hin hc
  have hfull : cnt < KEY_BUFF_SIZE := by simpa [KEY_BUFF_SIZE] using hc
  have hinlt : inp < 32 := by omega
  have hwrap : (if inp + 1 = KEY_BUFF_SIZE then 0 else inp + 1) = (inp + 1) % 32 := by
    simp only [KEY_BUFF_SIZE]
    split
    · omega
    · omega
  simp only [write_key, hwrap, if_pos hfull]
  refine ⟨trivial, ?_, ⟨?_, ?_, hout, ?_⟩, trivial⟩
  · simp only [listOf, List.range_succ, List.map_append, List.map_singleton]
    congr 1
    · apply map_range_congr
      intro i hi
      apply getD_set_ne
      rw [hin]
      omega
    · rw [hin]
      rw [getD_set_self _ _ _ (by omega)]
  · show (buf.set inp c).length = 32
    simpa using hlen
  · show cnt + 1 ≤ 32
    omega
  · show (inp + 1) % 32 = (out + (cnt + 1)) % 32
    omega

/-- `ps2_state_t` from the source: the PS/2 receive state machine states. -/
inductive ps2_state_t where
  | PS2_IDLE
  | PS2_DATA_BITS
  | PS2_PARITY
  | PS2_STOP
  | PS2_RX_ERR_START
  | PS2_RX_ERR_OVERRUN
  | PS2_RX_ERR_PARITY
  | PS2_RX_ERR_STOP
deriving DecidableEq, Repr

/-- State touched by `ISR(PCINT0_vect)`: the receiver globals
`ps2_rx_state`, `ps2_rx_data_byte` (uint8), `ps2_rx_bit_count`,
`ps2_rx_parity`, and the scan-code ring buffer. -/
structure Ps2Rx where
  ps2_rx_state : ps2_state_t
  ps2_rx_data_byte : Nat
  ps2_rx_bit_count : Nat
  ps2_rx_parity : Nat
  scanQ : KBuffer
deriving DecidableEq, Repr

/-- Body of `ISR(PCINT0_vect)` after the active-low clock check, taking the
sampled data bit `ps2_data_bit = (PINB & PS2_DATA) >> 4`. 8-bit truncation
of `ps2_data_bit << ps2_rx_bit_count` and of `ps2_rx_data_byte +=` is kept
as `% 256` (both are `uint8_t` in the source). -/
def isrBody (ps2_data_bit : Nat) (s : Ps2Rx) : Ps2Rx :=
  match s.ps2_rx_state with
  | .PS2_RX_ERR_START => s
  | .PS2_RX_ERR_OVERRUN => s
  | .PS2_RX_ERR_PARITY => s
  | .PS2_RX_ERR_STOP => s
  | .PS2_IDLE =>
      if ps2_data_bit = 0 then
        { s with ps2_rx_data_byte := 0, ps2_rx_bit_count := 0, ps2_rx_parity := 0,
                 ps2_rx_state := .PS2_DATA_BITS }
      else
        { s with ps2_rx_state := .PS2_RX_ERR_START }
  | .PS2_DATA_BITS =>
      let shifted := (ps2_data_bit <<< s.ps2_rx_bit_count) % 256
      let cnt := s.ps2_rx_bit_count + 1
      { s with ps2_rx_parity := s.ps2_rx_parity + ps2_data_bit,
               ps2_rx_data_byte := (s.ps2_rx_data_byte + shifted) % 256,
               ps2_rx_bit_count := cnt,
               ps2_rx_state := if cnt = 8 then .PS2_PARITY else .PS2_DATA_BITS }
  | .PS2_PARITY =>
      if (s.ps2_rx_parity + ps2_data_bit) % 2 = 1 then
        { s with ps2_rx_state := .PS2_STOP }
      else
        { s with ps2_rx_state := .PS2_RX_ERR_PARITY }
  | .PS2_STOP =>
      if ps2_data_bit = 1 then
        if s.scanQ.count < PS2_BUFF_SIZE then
          { s with
            scanQ := { buf := s.scanQ.buf.set s.scanQ.bufIn s.ps2_rx_data_byte,
                       count := s.scanQ.count + 1,
                       bufOut := s.scanQ.bufOut,
                       bufIn := if s.scanQ.bufIn + 1 = PS2_BUFF_SIZE then 0
                                else s.scanQ.bufIn + 1 },
            ps2_rx_state := .PS2_IDLE }
        else
          { s with ps2_rx_state := .PS2_RX_ERR_OVERRUN }
      else
        { s with ps2_rx_state := .PS2_RX_ERR_STOP }

/-- `ISR(PCINT0_vect)`: on a pin-change event, run the receiver step only
when the sampled `PINB` has the clock line low, with the data bit taken
from bit 4. -/
def isr (pinb : Nat) (s : Ps2Rx) : Ps2Rx :=
  if pinb &&& PS2_CLOCK = 0 then isrBody ((pinb &&& PS2_DATA) >>> 4) s else s

/-- Run the ISR over a sequence of pin-change `PINB` samples. -/
def runISR (ps : List Nat) (s : Ps2Rx) : Ps2Rx :=
  ps.foldl (fun t p => isr p t) s

/-- Run the ISR body over a sequence of already-extracted data bits. -/
def runBits (bs : List Nat) (s : Ps2Rx) : Ps2Rx :=
  bs.foldl (fun t b => isrBody b t) s

/-- Value of a bit list interpreted LSB-first, as the ISR assembles it. -/
def lsbVal (bs : List Nat) : Nat :=
  bs.foldr (fun b acc => b + 2 * acc) 0

/-- The receiver's latching error states. -/
def isErr (st : ps2_state_t) : Prop :=
  st = .PS2_RX_ERR_START ∨ st = .PS2_RX_ERR_OVERRUN ∨
  st = .PS2_RX_ERR_PARITY ∨ st = .PS2_RX_ERR_STOP

theorem extract_le_one (p : Nat) : (p &&& PS2_DATA) >>> 4 ≤ 1 := by
  have h1 : p &&& PS2_DATA ≤ PS2_DATA := Nat.and_le_right
  have h2 : (p &&& PS2_DATA) >>> 4 = (p &&& PS2_DATA) / 16 := by
    simp [Nat.shiftRight_eq_div_pow]
  rw [h2]
  simp only [PS2_DATA] at h1 ⊢
  omega

theorem isrBody_err (b : Nat) (s : Ps2Rx) (h : isErr s.ps2_rx_state) : isrBody b s = s := by
  rcases h with h | h | h | h <;> simp [isrBody, h]

theorem isr_err (p : Nat) (s : Ps2Rx) (h : isErr s.ps2_rx_state) : isr p s = s := by
  unfold isr
  split
  · exact isrBody_err _ _ h
  · rfl

theorem runISR_err (ps : List Nat) (s : Ps2Rx) (h : isErr s.ps2_rx_state) :
    runISR ps s = s := by
  induction ps with
  | nil => rfl
  | cons p rest ih =>
    show runISR rest (isr p s) = s
    rw [isr_err p s h, ih]

theorem runISR_eq_runBits (ps : List Nat) (s : Ps2Rx)
    (h : ∀ p ∈ ps, p &&& PS2_CLOCK = 0) :
    runISR ps s = runBits (ps.map (fun p => (p &&& PS2_DATA) >>> 4)) s := by
  induction ps generalizing s with
  | nil => rfl
  | cons p rest ih =>
    show runISR rest (isr p s) = runBits (List.map _ rest) (isrBody _ s)
    rw [isr, if_pos (h p (List.mem_cons_self p rest))]
    exact ih _ (fun x hx => h x (List.mem_cons_of_mem p hx))

theorem runBits_append (l1 l2 : List Nat) (s : Ps2Rx) :
    runBits (l1 ++ l2) s = runBits l2 (runBits l1 s) := by
  unfold runBits
  rw [List.foldl_append]

/-- Data-collection phase: from `PS2_DATA_BITS` with `n` bits already
accumulated into `acc < 2^n`, consuming the remaining `8 - n` data bits
appends them LSB-first above the accumulated ones, sums them into the
parity accumulator, and moves to `PS2_PARITY`. -/
theorem runBits_dataPhase (bs : List Nat) :
    ∀ n acc par q, bs ≠ [] → (∀ b ∈ bs, b ≤ 1) → n + bs.length = 8 → acc < 2 ^ n →
    runBits bs ⟨.PS2_DATA_BITS, acc, n, par, q⟩ =
      ⟨.PS2_PARITY, acc + lsbVal bs * 2 ^ n, 8, par + bs.sum, q⟩ := by
  induction bs with
  | nil => intro n acc par q hne _ _ _; exact absurd rfl hne
  | cons b rest ih =>
    intro n acc par q _ hb hn hacc
    have hble : b ≤ 1 := hb b (List.mem_cons_self b rest)
    have hn7 : n ≤ 7 := by simp at hn; omega
    have hpow : 2 ^ n ≤ 128 := by
      calc 2 ^ n ≤ 2 ^ 7 := Nat.pow_le_pow_right (by omega) hn7
      _ = 128 := by norm_num
    have hshift : (b <<< n) % 256 = b * 2 ^ n := by
      rw [Nat.shiftLeft_eq]
      apply Nat.mod_eq_of_lt
      have : b * 2 ^ n ≤ 1 * 128 := Nat.mul_le_mul hble hpow
      omega
    have hbyte : (acc + (b <<< n) % 256) % 256 = acc + b * 2 ^ n := by
      rw [hshift]
      apply Nat.mod_eq_of_lt
      have : b * 2 ^ n ≤ 1 * 128 := Nat.mul_le_mul hble hpow
      omega
    show runBits rest (isrBody b ⟨.PS2_DATA_BITS, acc, n, par, q⟩) = _
    by_cases h8 : n + 1 = 8
    · have hrest : rest = [] := by
        have := hn
        simp at this
        cases rest with
        | nil => rfl
        | cons x xs => simp at this; omega
      subst hrest
      simp only [isrBody, hbyte, if_pos h8, runBits, List.foldl_nil]
      have : acc + b * 2 ^ n = acc + lsbVal [b] * 2 ^ n := by simp [lsbVal]
      rw [h8]
      simp [lsbVal, this]
    · have hrest : rest.length = 8 - (n + 1) := by simp at hn; omega
      have hrne : rest ≠ [] := by
        intro hcon
        rw [hcon] at hrest
        simp at hrest
        omega
      simp only [isrBody, hbyte, if_neg h8]
      rw [ih (n + 1) (acc + b * 2 ^ n) (par + b) q hrne
            (fun x hx => hb x (List.mem_cons_of_mem b hx))
            (by simp at hn ⊢; omega)
            (by have : b * 2 ^ n ≤ 1 * 2 ^ n := Nat.mul_le_mul_right _ hble
                have h2 : 2 ^ (n + 1) = 2 ^ n + 2 ^ n := by ring
                omega)]
      have harith : acc + b * 2 ^ n + lsbVal rest * 2 ^ (n + 1) =
          acc + lsbVal (b :: rest) * 2 ^ n := by
        show acc + b * 2 ^ n + lsbVal rest * 2 ^ (n + 1) =
          acc + (b + 2 * lsbVal rest) * 2 ^ n
        ring
      have hsum : par + b + rest.sum = par + (b :: rest).sum := by
        simp
        omega
      rw [harith, hsum]

theorem runBits_cons (b : Nat) (l : List Nat) (s : Ps2Rx) :
    runBits (b :: l) s = runBits l (isrBody b s) := rfl

theorem runISR_append (l1 l2 : List Nat) (s : Ps2Rx) :
    runISR (l1 ++ l2) s = runISR l2 (runISR l1 s) := by
  unfold runISR
  rw [List.foldl_append]

/-- Claim C1: for every valid 11-bit frame presented to the receive ISR as
successive active (low) clock-edge events — start bit 0, eight data bits,
a parity bit making the count of 1s among data and parity odd, stop bit 1 —
starting from `PS2_IDLE` with the scan-code queue not full, the ISR
assembles the data bits LSB-first into one byte, pushes exactly that byte
once onto the queue, and returns to `PS2_IDLE`. -/
theorem receiver_decodes_valid_frame (pinbs bs : List Nat) (par : Nat) (s : Ps2Rx)
    (hclk : ∀ p ∈ pinbs, p &&& PS2_CLOCK = 0)
    (hbits : pinbs.map (fun p => (p &&& PS2_DATA) >>> 4) = 0 :: bs ++ [par, 1])
    (hlen : bs.length = 8)
    (hpar : (bs.sum + par) % 2 = 1)
    (hidle : s.ps2_rx_state = .PS2_IDLE)
    (hq : wfBuf s.scanQ) (hroom : s.scanQ.count < 32) :
    (runISR pinbs s).ps2_rx_state = .PS2_IDLE ∧
    listOf (runISR pinbs s).scanQ = listOf s.scanQ ++ [lsbVal bs] ∧
    (runISR pinbs s).scanQ.count = s.scanQ.count + 1 ∧
    wfBuf (runISR pinbs s).scanQ := by
  have hb : ∀ b ∈ bs, b ≤ 1 := by
    intro b hbmem
    have hmem : b ∈ pinbs.map (fun p => (p &&& PS2_DATA) >>> 4) := by
      rw [hbits]
      exact List.mem_cons_of_mem _ (List.mem_append_left _ hbmem)
    obtain ⟨p, _, rfl⟩ := List.mem_map.mp hmem
    exact extract_le_one p
  have hne : bs ≠ [] := by
    intro hcon
    rw [hcon] at hlen
    simp at hlen
  rw [runISR_eq_runBits _ _ hclk, hbits]
  obtain ⟨st, db, bc, pr, q⟩ := s
  simp only at hidle hq hroom ⊢
  subst hidle
  rw [List.cons_append, runBits_cons]
  have step0 : isrBody 0 ⟨.PS2_IDLE, db, bc, pr, q⟩ = ⟨.PS2_DATA_BITS, 0, 0, 0, q⟩ := by
    simp [isrBody]
  rw [step0]
  have hsplit : bs ++ [par, 1] = (bs ++ [par]) ++ [1] := by simp
  rw [hsplit, runBits_append, runBits_append]
  rw [runBits_dataPhase bs 0 0 0 q hne hb (by omega) (by norm_num)]
  have stepP : runBits [par] ⟨.PS2_PARITY, 0 + lsbVal bs * 2 ^ 0, 8, 0 + bs.sum, q⟩ =
      ⟨.PS2_STOP, lsbVal bs, 8, bs.sum, q⟩ := by
    simp [runBits, isrBody, hpar]
  rw [stepP]
  have hfull : q.count < KEY_BUFF_SIZE := by simpa [KEY_BUFF_SIZE] using hroom
  obtain ⟨h1, h2, h3, h4⟩ := push_spec q (lsbVal bs) hq hroom
  have stepS : runBits [1] ⟨.PS2_STOP, lsbVal bs, 8, bs.sum, q⟩ =
      ⟨.PS2_IDLE, lsbVal bs, 8, bs.sum, (write_key (lsbVal bs) q).2⟩ := by
    simp [runBits, isrBody, write_key, PS2_BUFF_SIZE, KEY_BUFF_SIZE, hroom]
  rw [stepS]
  exact ⟨rfl, h2, h4, h3⟩

/-- Witness for C1: the frame for byte 0x55 (bits 1,0,1,0,1,0,1,0 LSB
first, parity bit 1, stop bit 1) pushed into an empty queue. -/
theorem receiver_decodes_valid_frame_witness :
    (runISR [0, 16, 0, 16, 0, 16, 0, 16, 0, 16, 16]
        ⟨.PS2_IDLE, 0, 0, 0, ⟨List.replicate 32 0, 0, 0, 0⟩⟩).ps2_rx_state = .PS2_IDLE ∧
    listOf (runISR [0, 16, 0, 16, 0, 16, 0, 16, 0, 16, 16]
        ⟨.PS2_IDLE, 0, 0, 0, ⟨List.replicate 32 0, 0, 0, 0⟩⟩).scanQ =
      listOf ⟨List.replicate 32 0, 0, 0, 0⟩ ++ [lsbVal [1, 0, 1, 0, 1, 0, 1, 0]] ∧
    (runISR [0, 16, 0, 16, 0, 16, 0, 16, 0, 16, 16]
        ⟨.PS2_IDLE, 0, 0, 0, ⟨List.replicate 32 0, 0, 0, 0⟩⟩).scanQ.count =
      (⟨List.replicate 32 0, 0, 0, 0⟩ : KBuffer).count + 1 ∧
    wfBuf (runISR [0, 16, 0, 16, 0, 16, 0, 16, 0, 16, 16]
        ⟨.PS2_IDLE, 0, 0, 0, ⟨List.replicate 32 0, 0, 0, 0⟩⟩).scanQ :=
  receiver_decodes_valid_frame [0, 16, 0, 16, 0, 16, 0, 16, 0, 16, 16]
    [1, 0, 1, 0, 1, 0, 1, 0] 1 ⟨.PS2_IDLE, 0, 0, 0, ⟨List.replicate 32 0, 0, 0, 0⟩⟩
    (by decide) (by decide) rfl (by decide) rfl (by decide) (by decide)

/-- Claim C2: a frame violating exactly one of start bit, parity, or stop
bit drives the receiver from `PS2_IDLE` into the corresponding latching
error state (`PS2_RX_ERR_START`, `PS2_RX_ERR_PARITY`, `PS2_RX_ERR_STOP`),
pushes nothing onto the scan-code queue, and every subsequent pin-change
event (`rest` below is arbitrary) leaves the error state and the queue
unchanged. -/
theorem receiver_malformed_frame :
    (∀ (p : Nat) (rest : List Nat) (s : Ps2Rx),
       p &&& PS2_CLOCK = 0 → (p &&& PS2_DATA) >>> 4 = 1 → s.ps2_rx_state = .PS2_IDLE →
       runISR (p :: rest) s = { s with ps2_rx_state := .PS2_RX_ERR_START }) ∧
    (∀ (pinbs bs rest : List Nat) (par : Nat) (s : Ps2Rx),
       (∀ p ∈ pinbs, p &&& PS2_CLOCK = 0) →
       pinbs.map (fun p => (p &&& PS2_DATA) >>> 4) = 0 :: bs ++ [par] →
       bs.length = 8 → (bs.sum + par) % 2 = 0 → s.ps2_rx_state = .PS2_IDLE →
       (runISR (pinbs ++ rest) s).ps2_rx_state = .PS2_RX_ERR_PARITY ∧
       (runISR (pinbs ++ rest) s).scanQ = s.scanQ) ∧
    (∀ (pinbs bs rest : List Nat) (par : Nat) (s : Ps2Rx),
       (∀ p ∈ pinbs, p &&& PS2_CLOCK = 0) →
       pinbs.map (fun p => (p &&& PS2_DATA) >>> 4) = 0 :: bs ++ [par, 0] →
       bs.length = 8 → (bs.sum + par) % 2 = 1 → s.ps2_rx_state = .PS2_IDLE →
       (runISR (pinbs ++ rest) s).ps2_rx_state = .PS2_RX_ERR_STOP ∧
       (runISR (pinbs ++ rest) s).scanQ = s.scanQ) := by
  refine ⟨?_, ?_, ?_⟩
  · intro p rest s hclk1 hbit hidle
    have hstep : isr p s = { s with ps2_rx_state := .PS2_RX_ERR_START } := by
      rw [isr, if_pos hclk1, hbit]
      obtain ⟨st, db, bc, pr, q⟩ := s
      simp only at hidle
      subst hidle
      simp [isrBody]
    show runISR rest (isr p s) = _
    rw [hstep, runISR_err]
    exact Or.inl rfl
  · intro pinbs bs rest par s hclk hbits hlen hpar hidle
    have hb : ∀ b ∈ bs, b ≤ 1 := by
      intro b hbmem
      have hmem : b ∈ pinbs.map (fun p => (p &&& PS2_DATA) >>> 4) := by
        rw [hbits]
        exact List.mem_append_left _ (List.mem_cons_of_mem _ hbmem)
      obtain ⟨p, _, rfl⟩ := List.mem_map.mp hmem
      exact extract_le_one p
    have hne : bs ≠ [] := by
      intro hcon
      rw [hcon] at hlen
      simp at hlen
    rw [runISR_append, runISR_eq_runBits _ _ hclk, hbits]
    obtain ⟨st, db, bc, pr, q⟩ := s
    simp only at hidle ⊢
    subst hidle
    rw [List.cons_append, runBits_cons]
    have step0 : isrBody 0 ⟨.PS2_IDLE, db, bc, pr, q⟩ = ⟨.PS2_DATA_BITS, 0, 0, 0, q⟩ := by
      simp [isrBody]
    rw [step0, runBits_append]
    rw [runBits_dataPhase bs 0 0 0 q hne hb (by omega) (by norm_num)]
    have stepP : runBits [par] ⟨.PS2_PARITY, 0 + lsbVal bs * 2 ^ 0, 8, 0 + bs.sum, q⟩ =
        ⟨.PS2_RX_ERR_PARITY, 0 + lsbVal bs * 2 ^ 0, 8, 0 + bs.sum, q⟩ := by
      simp [runBits, isrBody, hpar]
    rw [stepP, runISR_err]
    · exact ⟨rfl, rfl⟩
    · exact Or.inr (Or.inr (Or.inl rfl))
  · intro pinbs bs rest par s hclk hbits hlen hpar hidle
    have hb : ∀ b ∈ bs, b ≤ 1 := by
      intro b hbmem
      have hmem : b ∈ pinbs.map (fun p => (p &&& PS2_DATA) >>> 4) := by
        rw [hbits]
        exact List.mem_append_left _ (List.mem_cons_of_mem _ hbmem)
      obtain ⟨p, _, rfl⟩ := List.mem_map.mp hmem
      exact extract_le_one p
    have hne : bs ≠ [] := by
      intro hcon
      rw [hcon] at hlen
      simp at hlen
    rw [runISR_append, runISR_eq_runBits _ _ hclk, hbits]
    obtain ⟨st, db, bc, pr, q⟩ := s
    simp only at hidle ⊢
    subst hidle
    rw [List.cons_append, runBits_cons]
    have step0 : isrBody 0 ⟨.PS2_IDLE, db, bc, pr, q⟩ = ⟨.PS2_DATA_BITS, 0, 0, 0, q⟩ := by
      simp [isrBody]
    rw [step0]
    have hsplit : bs ++ [par, 0] = (bs ++ [par]) ++ [0] := by simp
    rw [hsplit, runBits_append, runBits_append]
    rw [runBits_dataPhase bs 0 0 0 q hne hb (by omega) (by norm_num)]
    have stepP : runBits [par] ⟨.PS2_PARITY, 0 + lsbVal bs * 2 ^ 0, 8, 0 + bs.sum, q⟩ =
        ⟨.PS2_STOP, 0 + lsbVal bs * 2 ^ 0, 8, 0 + bs.sum, q⟩ := by
      simp [runBits, isrBody, hpar]
    rw [stepP]
    have stepS : runBits [0] ⟨.PS2_STOP, 0 + lsbVal bs * 2 ^ 0, 8, 0 + bs.sum, q⟩ =
        ⟨.PS2_RX_ERR_STOP, 0 + lsbVal bs * 2 ^ 0, 8, 0 + bs.sum, q⟩ := by
      simp [runBits, isrBody]
    rw [stepS, runISR_err]
    · exact ⟨rfl, rfl⟩
    · exact Or.inr (Or.inr (Or.inr rfl))

/-- Witness for C2: a bad start bit, a frame for 0x55 with even total
parity, and a frame for 0x55 with a 0 stop bit, each followed by further
events, all starting from idle with an empty queue. -/
theorem receiver_malformed_frame_witness :
    (runISR [16, 0, 8] ⟨.PS2_IDLE, 0, 0, 0, ⟨List.replicate 32 0, 0, 0, 0⟩⟩ =
      { (⟨.PS2_IDLE, 0, 0, 0, ⟨List.replicate 32 0, 0, 0, 0⟩⟩ : Ps2Rx) with
        ps2_rx_state := .PS2_RX_ERR_START }) ∧
    ((runISR ([0, 16, 0, 16, 0, 16, 0, 16, 0, 0] ++ [16, 16])
        ⟨.PS2_IDLE, 0, 0, 0, ⟨List.replicate 32 0, 0, 0, 0⟩⟩).ps2_rx_state =
          .PS2_RX_ERR_PARITY ∧
     (runISR ([0, 16, 0, 16, 0, 16, 0, 16, 0, 0] ++ [16, 16])
        ⟨.PS2_IDLE, 0, 0, 0, ⟨List.replicate 32 0, 0, 0, 0⟩⟩).scanQ =
          (⟨.PS2_IDLE, 0, 0, 0, ⟨List.replicate 32 0, 0, 0, 0⟩⟩ : Ps2Rx).scanQ) ∧
    ((runISR ([0, 16, 0, 16, 0, 16, 0, 16, 0, 16, 0] ++ [0])
        ⟨.PS2_IDLE, 0, 0, 0, ⟨List.replicate 32 0, 0, 0, 0⟩⟩).ps2_rx_state =
          .PS2_RX_ERR_STOP ∧
     (runISR ([0, 16, 0, 16, 0, 16, 0, 16, 0, 16, 0] ++ [0])
        ⟨.PS2_IDLE, 0, 0, 0, ⟨List.replicate 32 0, 0, 0, 0⟩⟩).scanQ =
          (⟨.PS2_IDLE, 0, 0, 0, ⟨List.replicate 32 0, 0, 0, 0⟩⟩ : Ps2Rx).scanQ) :=
  ⟨receiver_malformed_frame.1 16 [0, 8]
      ⟨.PS2_IDLE, 0, 0, 0, ⟨List.replicate 32 0, 0, 0, 0⟩⟩ (by decide) (by decide) rfl,
   receiver_malformed_frame.2.1 [0, 16, 0, 16, 0, 16, 0, 16, 0, 0]
      [1, 0, 1, 0, 1, 0, 1, 0] [16, 16] 0
      ⟨.PS2_IDLE, 0, 0, 0, ⟨List.replicate 32 0, 0, 0, 0⟩⟩
      (by decide) (by decide) (by decide) (by decide) rfl,
   receiver_malformed_frame.2.2 [0, 16, 0, 16, 0, 16, 0, 16, 0, 16, 0]
      [1, 0, 1, 0, 1, 0, 1, 0] [0] 1
      ⟨.PS2_IDLE, 0, 0, 0, ⟨List.replicate 32 0, 0, 0, 0⟩⟩
      (by decide) (by decide) (by decide) (by decide) rfl⟩

/-- Claim C5: for both ring buffers, push and pop preserve
`count ≤ capacity` (counts are naturals, so `0 ≤ count` holds by type);
a push onto a full buffer fails with `-1` (or, inside the receive ISR,
latches `PS2_RX_ERR_OVERRUN`) changing nothing; a pop from an empty
buffer returns the `-1` empty sentinel changing nothing. -/
theorem ring_buffer_bounds :
    (∀ (c : Nat) (q : KBuffer), q.count ≤ 32 → (write_key c q).2.count ≤ 32) ∧
    (∀ q : KBuffer, q.count ≤ 32 → (ps2_recv q).2.count ≤ 32) ∧
    (∀ q : KBuffer, q.count ≤ 32 → (read_key q).2.count ≤ 32) ∧
    (∀ (c : Nat) (q : KBuffer), q.count = 32 → write_key c q = (-1, q)) ∧
    (∀ q : KBuffer, q.count = 0 → ps2_recv q = (-1, q)) ∧
    (∀ q : KBuffer, q.count = 0 → read_key q = (-1, q)) ∧
    (∀ s : Ps2Rx, s.ps2_rx_state = .PS2_STOP → s.scanQ.count = 32 →
       isrBody 1 s = { s with ps2_rx_state := .PS2_RX_ERR_OVERRUN }) := by
  refine ⟨?_, ?_, ?_, ?_, ?_, ?_, ?_⟩
  · intro c q h
    unfold write_key
    split
    · simp only [KEY_BUFF_SIZE] at *
      omega
    · exact h
  · intro q h
    unfold ps2_recv
    split
    · simp only
      omega
    · exact h
  · intro q h
    unfold read_key
    split
    · simp only
      omega
    · exact h
  · intro c q h
    unfold write_key
    rw [if_neg]
    simp only [KEY_BUFF_SIZE]
    omega
  · intro q h
    unfold ps2_recv
    rw [if_neg]
    omega
  · intro q h
    unfold read_key
    rw [if_neg]
    omega
  · intro s hst hcnt
    obtain ⟨st, db, bc, pr, q⟩ := s
    simp only at hst hcnt
    subst hst
    simp [isrBody, PS2_BUFF_SIZE, hcnt]

/-- Witness for C5: the no-op behaviors on a full and on an empty buffer,
and the overrun latch of the receive ISR on a full queue. -/
theorem ring_buffer_bounds_witness :
    ((write_key 7 ⟨List.replicate 32 9, 32, 0, 0⟩).2.count ≤ 32) ∧
    ((ps2_recv ⟨List.replicate 32 9, 0, 0, 0⟩).2.count ≤ 32) ∧
    ((read_key ⟨List.replicate 32 9, 0, 0, 0⟩).2.count ≤ 32) ∧
    (write_key 7 ⟨List.replicate 32 9, 32, 0, 0⟩ =
      (-1, ⟨List.replicate 32 9, 32, 0, 0⟩)) ∧
    (ps2_recv ⟨List.replicate 32 9, 0, 0, 0⟩ = (-1, ⟨List.replicate 32 9, 0, 0, 0⟩)) ∧
    (read_key ⟨List.replicate 32 9, 0, 0, 0⟩ = (-1, ⟨List.replicate 32 9, 0, 0, 0⟩)) ∧
    (isrBody 1 ⟨.PS2_STOP, 5, 8, 0, ⟨List.replicate 32 9, 32, 0, 0⟩⟩ =
      { (⟨.PS2_STOP, 5, 8, 0, ⟨List.replicate 32 9, 32, 0, 0⟩⟩ : Ps2Rx) with
        ps2_rx_state := .PS2_RX_ERR_OVERRUN }) :=
  ⟨ring_buffer_bounds.1 7 ⟨List.replicate 32 9, 32, 0, 0⟩ (by decide),
   ring_buffer_bounds.2.1 ⟨List.replicate 32 9, 0, 0, 0⟩ (by decide),
   ring_buffer_bounds.2.2.1 ⟨List.replicate 32 9, 0, 0, 0⟩ (by decide),
   ring_buffer_bounds.2.2.2.1 7 ⟨List.replicate 32 9, 32, 0, 0⟩ (by decide),
   ring_buffer_bounds.2.2.2.2.1 ⟨List.replicate 32 9, 0, 0, 0⟩ (by decide),
   ring_buffer_bounds.2.2.2.2.2.1 ⟨List.replicate 32 9, 0, 0, 0⟩ (by decide),
   ring_buffer_bounds.2.2.2.2.2.2 ⟨.PS2_STOP, 5, 8, 0, ⟨List.replicate 32 9, 32, 0, 0⟩⟩
     rfl (by decide)⟩

/-- State touched by `ISR(USI_OVF_vect)`: the `USIDR` hardware data
register (the byte staged for/received from a transfer), the latched
`command_in` byte, and the key-code ring buffer. -/
structure HostState where
  USIDR : Nat
  command_in : Nat
  keyQ : KBuffer
deriving DecidableEq, Repr

/-- `ISR(USI_OVF_vect)`: runs when a transfer completes, with `USIDR`
holding the byte just received from the host. It latches that byte into
`command_in`, then stages the next outbound byte: the next key code popped
via `read_key`, or 0 when the queue is empty. -/
def USI_OVF (s : HostState) : HostState :=
  let r := read_key s.keyQ
  { USIDR := if r.1 = -1 then 0 else r.1.toNat,
    command_in := s.USIDR,
    keyQ := r.2 }

/-- One full-duplex host exchange: the host clocks one byte each way, so
it receives the previously staged `USIDR` while the firmware receives the
host's byte `c`; the overflow ISR then runs on the completed transfer. -/
def exchange (c : Nat) (s : HostState) : Nat × HostState :=
  (s.USIDR, USI_OVF { s with USIDR := c })

/-- A sequence of host exchanges; returns the bytes the host received, in
order, and the final state. -/
def exchanges : List Nat → HostState → List Nat × HostState
  | [], s => ([], s)
  | c :: cs, s =>
    let r := exchange c s
    let rs := exchanges cs r.2
    (r.1 :: rs.1, rs.2)

theorem read_key_eq_ps2_recv : read_key = ps2_recv := rfl

theorem read_key_empty (q : KBuffer) (h : q.count = 0) : read_key q = (-1, q) := by
  unfold read_key
  rw [if_neg]
  omega

theorem exchanges_cons (c : Nat) (cs : List Nat) (s : HostState) :
    (exchanges (c :: cs) s).1 = (exchange c s).1 :: (exchanges cs (exchange c s).2).1 := rfl

theorem exchange_empty (c : Nat) (s : HostState) (h : s.keyQ.count = 0) :
    exchange c s = (s.USIDR, { USIDR := 0, command_in := c, keyQ := s.keyQ }) := by
  simp [exchange, USI_OVF, read_key_empty s.keyQ h]

theorem exchange_pop (c : Nat) (s : HostState) (hwf : wfBuf s.keyQ)
    (hpos : 0 < s.keyQ.count) :
    exchange c s = (s.USIDR,
      { USIDR := (listOf s.keyQ).headD 0, command_in := c,
        keyQ := (ps2_recv s.keyQ).2 }) := by
  obtain ⟨p1, p2, p3, p4, p5⟩ := pop_spec s.keyQ hwf hpos
  have hne : (ps2_recv s.keyQ).1 ≠ -1 := by
    rw [p1]
    simp
  simp only [exchange, USI_OVF, read_key_eq_ps2_recv, if_neg hne]
  rw [p1]
  simp

/-- With an empty key queue every completed exchange stages the 0 sentinel,
so the host reads the previously staged byte once and then only zeros. -/
theorem exchanges_zero (cs : List Nat) (s : HostState) (h : s.keyQ.count = 0) :
    (exchanges cs s).1 =
      if cs = [] then [] else s.USIDR :: List.replicate (cs.length - 1) 0 := by
  induction cs generalizing s with
  | nil => simp [exchanges]
  | cons c cs' ih =>
    rw [exchanges_cons, exchange_empty c s h]
    rw [ih { USIDR := 0, command_in := c, keyQ := s.keyQ } h]
    cases cs' with
    | nil => simp
    | cons d ds => simp [List.replicate_succ]

/-- FIFO service of the key queue across a run of exchanges: starting with
a well-formed queue holding `listOf s.keyQ`, over `1 + count + m`
exchanges the host receives the previously staged byte, then every queued
key code in FIFO order, then `m` zeros. -/
theorem exchanges_fifo (cs : List Nat) (m : Nat) (s : HostState)
    (hwf : wfBuf s.keyQ) (hlen : cs.length = 1 + s.keyQ.count + m) :
    (exchanges cs s).1 = s.USIDR :: (listOf s.keyQ ++ List.replicate m 0) := by
  induction cs generalizing s m with
  | nil =>
    exact absurd hlen (by simp; omega)
  | cons c cs' ih =>
    rw [exchanges_cons]
    cases hc : s.keyQ.count with
    | zero =>
      have hnil : listOf s.keyQ = [] := by simp [listOf, hc]
      rw [exchange_empty c s hc]
      have hm : cs'.length = m := by
        simp at hlen
        omega
      rw [exchanges_zero cs' { USIDR := 0, command_in := c, keyQ := s.keyQ } hc]
      cases cs' with
      | nil =>
        have hm0 : m = 0 := by simpa using hm.symm
        simp [hnil, hm0]
      | cons d ds =>
        have hm' : m = ds.length + 1 := by
          simp at hm
          omega
        simp [hnil, hm', List.replicate_succ]
    | succ k =>
      have hpos : 0 < s.keyQ.count := by omega
      obtain ⟨p1, p2, p3, p4, p5⟩ := pop_spec s.keyQ hwf hpos
      rw [exchange_pop c s hwf hpos]
      have hlen' : cs'.length = 1 + (ps2_recv s.keyQ).2.count + m := by
        rw [p4]
        simp at hlen
        omega
      rw [ih _ _ p3 hlen']
      have hlnil : listOf s.keyQ ≠ [] := by
        intro hcon
        have hll := listOf_length s.keyQ
        rw [hcon] at hll
        simp at hll
        omega
      simp only [p2]
      have hjoin : ((listOf s.keyQ).headD 0 :: ((listOf s.keyQ).tail ++ List.replicate m 0)) =
          (listOf s.keyQ ++ List.replicate m 0) := by
        rw [← List.cons_append, headD_cons_tail _ hlnil]
      rw [hjoin]

/-- Claim C4: on every completed host exchange the byte received from the
host is latched into `command_in`, one entry is popped from the key queue
and staged as the outbound byte for the next transfer (`headD 0` is the
oldest entry, or the 0x00 sentinel when the queue is empty, with the count
decreasing accordingly); consequently over `1 + N + m` exchanges the host
receives the previously staged byte, then the N queued key codes in FIFO
order, then 0x00 on each of the remaining `m` exchanges. -/
theorem host_responder_serves_fifo (cs : List Nat) (m : Nat) (s : HostState)
    (c : Nat) (t : HostState)
    (hwf : wfBuf s.keyQ) (hlen : cs.length = 1 + s.keyQ.count + m)
    (hwt : wfBuf t.keyQ) :
    (exchanges cs s).1 = s.USIDR :: (listOf s.keyQ ++ List.replicate m 0) ∧
    (exchange c t).2.command_in = c ∧
    (exchange c t).2.USIDR = (listOf t.keyQ).headD 0 ∧
    (exchange c t).2.keyQ.count = t.keyQ.count - 1 := by
  have hparts : (exchange c t).2.command_in = c ∧
      (exchange c t).2.USIDR = (listOf t.keyQ).headD 0 ∧
      (exchange c t).2.keyQ.count = t.keyQ.count - 1 := by
    cases hc : t.keyQ.count with
    | zero =>
      rw [exchange_empty c t hc]
      refine ⟨rfl, ?_, ?_⟩
      · have hnil : listOf t.keyQ = [] := by simp [listOf, hc]
        rw [hnil]
        rfl
      · show t.keyQ.count = 0 - 1
        omega
    | succ k =>
      have hpos : 0 < t.keyQ.count := by omega
      obtain ⟨p1, p2, p3, p4, p5⟩ := pop_spec t.keyQ hwt hpos
      rw [exchange_pop c t hwt hpos]
      refine ⟨rfl, rfl, ?_⟩
      show (ps2_recv t.keyQ).2.count = k + 1 - 1
      rw [p4, hc]
  exact ⟨exchanges_fifo cs m s hwf hlen, hparts⟩

/-- Witness for C4: two key codes 5 and 7 queued; four exchanges return
the previously staged byte 0xAB, then 5, then 7, then the 0x00 sentinel. -/
theorem host_responder_serves_fifo_witness :
    (exchanges [1, 2, 3, 4]
        ⟨0xab, 0, ⟨((List.replicate 32 0).set 0 5).set 1 7, 2, 0, 2⟩⟩).1 =
      0xab :: (listOf ⟨((List.replicate 32 0).set 0 5).set 1 7, 2, 0, 2⟩ ++
        List.replicate 1 0) ∧
    (exchange 0x42
        ⟨0xab, 0, ⟨((List.replicate 32 0).set 0 5).set 1 7, 2, 0, 2⟩⟩).2.command_in = 0x42 ∧
    (exchange 0x42
        ⟨0xab, 0, ⟨((List.replicate 32 0).set 0 5).set 1 7, 2, 0, 2⟩⟩).2.USIDR =
      (listOf ⟨((List.replicate 32 0).set 0 5).set 1 7, 2, 0, 2⟩).headD 0 ∧
    (exchange 0x42
        ⟨0xab, 0, ⟨((List.replicate 32 0).set 0 5).set 1 7, 2, 0, 2⟩⟩).2.keyQ.count =
      (⟨((List.replicate 32 0).set 0 5).set 1 7, 2, 0, 2⟩ : KBuffer).count - 1 :=
  host_responder_serves_fifo [1, 2, 3, 4] 1
    ⟨0xab, 0, ⟨((List.replicate 32 0).set 0 5).set 1 7, 2, 0, 2⟩⟩ 0x42
    ⟨0xab, 0, ⟨((List.replicate 32 0).set 0 5).set 1 7, 2, 0, 2⟩⟩
    (by decide) (by decide) (by decide)

/-- The scan-code filtering/remapping tail of the `main()` loop: the
`switch (scan_code & 0x7f)` discard table with its `case 54` remap to
`(scan_code & 0x80) + 42`, followed by the range check
`((uint8_t)scan_code & 0x7f) > PS2_LAST_CODE || scan_code == 0`.
Returns the key code passed to `write_key`, or `none` when the loop
`continue`s without emitting. -/
def scanFilter (scan_code : Nat) : Option Nat :=
  let low := scan_code &&& 0x7f
  if low = 15 ∨ low = 27 ∨ low = 29 ∨ low = 41 ∨ low = 40 ∨ low = 43 ∨ low = 55 ∨
     low = 56 ∨ low = 58 ∨ (69 ≤ low ∧ low ≤ 71) ∨ (73 ≤ low ∧ low ≤ 74) ∨ low = 76 ∨
     (78 ≤ low ∧ low ≤ 79) ∨ (81 ≤ low ∧ low ≤ 83) ∨ low = 85 ∨ low = 133 ∨
     low = 134 ∨ (91 ≤ low ∧ low ≤ 93) then
    none
  else
    let sc := if low = 54 then (scan_code &&& 0x80) + 42 else scan_code
    if PS2_LAST_CODE < (sc % 256) &&& 0x7f ∨ sc = 0 then none else some sc

/-- The `0xE0` extended-prefix handling of the `main()` loop: on lead byte
`0xE0` pull one further byte (blocking; an exhausted stream models a
forever-blocked `ps2_recv_x`), keep it only if it is one of the eight
allow-listed codes, then run the filtering tail. -/
def stage2 (scan_code : Nat) (rest : List Nat) : Option Nat × List Nat :=
  if scan_code = 0xe0 then
    match rest with
    | [] => (none, [])
    | c2 :: rest2 =>
      if c2 = 0x50 ∨ c2 = 0xd0 ∨ c2 = 0x4d ∨ c2 = 0xcd ∨ c2 = 0x4b ∨ c2 = 0xcb ∨
         c2 = 0x48 ∨ c2 = 0xc8 then
        (scanFilter c2, rest2)
      else
        (none, rest2)
  else
    (scanFilter scan_code, rest)

/-- One iteration of the `main()` translation loop, on the dequeued byte
`scan_code` with `rest` the stream of bytes still to be received: the
`0xE1` Pause/Break handling (discard the sequence when the second byte is
`0x1D` or `0x9D`, otherwise fall through with the second byte as the new
scan code), then the `0xE0` handling and the filtering tail. Returns the
emitted key code (if any) and the remaining stream. -/
def step1 (scan_code : Nat) (rest : List Nat) : Option Nat × List Nat :=
  if scan_code = 0xe1 then
    match rest with
    | [] => (none, [])
    | c2 :: rest2 =>
      if c2 = 0x1d then
        match rest2 with
        | [] => (none, [])
        | _ :: rest3 => (none, rest3)
      else if c2 = 0x9d then
        match rest2 with
        | [] => (none, [])
        | _ :: rest3 => (none, rest3)
      else
        stage2 c2 rest2
  else
    stage2 scan_code rest

/-- Fuel-indexed run of the translation loop over an input stream; the
fuel bounds the number of loop iterations. -/
def translateFuel : Nat → List Nat → List Nat
  | 0, _ => []
  | _ + 1, [] => []
  | fuel + 1, c :: rest =>
    match step1 c rest with
    | (none, rest') => translateFuel fuel rest'
    | (some k, rest') => k :: translateFuel fuel rest'

/-- The key codes the `main()` loop passes to `write_key` when fed the
given stream of raw scan-code bytes (each iteration consumes at least one
byte, so the stream length is enough fuel). -/
def translateScan (input : List Nat) : List Nat :=
  translateFuel input.length input

theorem stage2_length (c : Nat) (rest : List Nat) :
    (stage2 c rest).2.length ≤ rest.length := by
  cases rest with
  | nil =>
    simp only [stage2]
    split_ifs <;> simp
  | cons c2 rest2 =>
    simp only [stage2]
    split_ifs <;> simp

theorem step1_length (c : Nat) (rest : List Nat) :
    (step1 c rest).2.length ≤ rest.length := by
  cases rest with
  | nil =>
    simp only [step1]
    split_ifs
    · simp
    · exact stage2_length c []
  | cons c2 rest2 =>
    simp only [step1]
    split_ifs
    · cases rest2 with
      | nil => simp
      | cons d ds => simp; omega
    · cases rest2 with
      | nil => simp
      | cons d ds => simp; omega
    · calc (stage2 c2 rest2).2.length ≤ rest2.length := stage2_length c2 rest2
        _ ≤ (c2 :: rest2).length := by simp
    · exact stage2_length c (c2 :: rest2)

theorem translateFuel_nil (fuel : Nat) : translateFuel fuel [] = [] := by
  cases fuel with
  | zero => rfl
  | succ f => rfl

/-- Extra fuel beyond the stream length changes nothing. -/
theorem translateFuel_add (fuel : Nat) :
    ∀ (k : Nat) (l : List Nat), l.length ≤ fuel →
    translateFuel (fuel + k) l = translateFuel fuel l := by
  induction fuel with
  | zero =>
    intro k l hl
    have hnl : l = [] := by
      cases l with
      | nil => rfl
      | cons x xs => simp at hl
    subst hnl
    rw [translateFuel_nil, translateFuel_nil]
  | succ f ih =>
    intro k l hl
    cases l with
    | nil => rw [translateFuel_nil, translateFuel_nil]
    | cons c rest =>
      have hshape : f + 1 + k = (f + k) + 1 := by omega
      rw [hshape]
      show (match step1 c rest with
            | (none, rest') => translateFuel (f + k) rest'
            | (some k', rest') => k' :: translateFuel (f + k) rest') =
           (match step1 c rest with
            | (none, rest') => translateFuel f rest'
            | (some k', rest') => k' :: translateFuel f rest')
      cases hs : step1 c rest with
      | mk o rest' =>
      have hr : rest'.length ≤ f := by
        have hsl := step1_length c rest
        rw [hs] at hsl
        simp at hsl hl
        omega
      cases o with
      | none => simp [ih k rest' hr]
      | some k' => simp [ih k rest' hr]

theorem translateFuel_cons (f : Nat) (c : Nat) (rest : List Nat) :
    translateFuel (f + 1) (c :: rest) =
      (match step1 c rest with
       | (none, rest') => translateFuel f rest'
       | (some k, rest') => k :: translateFuel f rest') := rfl

set_option maxRecDepth 100000

/-- Counterexample to C3 as stated: the input `[0xE1, 0x1E]` starts with
the Pause/Break lead byte, yet the translator does not discard it — the
second byte falls through the `0x1D`/`0x9D` tests and is processed as an
ordinary scan code, emitting one output code. -/
theorem pause_lead_not_unconditional :
    translateScan [0xe1, 0x1e] = [0x1e] ∧ translateScan [0xe1, 0x1e] ≠ [] := by
  decide

/-- Claim C3 (amended): when the first byte is the Pause/Break lead 0xE1
and the second raw byte is 0x1D or 0x9D, the translator pulls two further
raw bytes and discards the whole three-byte sequence, producing zero
output codes; a second byte other than 0x1D/0x9D is instead processed as
an ordinary scan code. -/
theorem pause_sequence_discarded (b x : Nat) (rest : List Nat)
    (hb : b = 0x1d ∨ b = 0x9d) :
    translateScan (0xe1 :: b :: x :: rest) = translateScan rest ∧
    translateScan [0xe1, b, x] = [] := by
  have hstep : step1 0xe1 (b :: x :: rest) = (none, rest) := by
    rcases hb with rfl | rfl
    · simp [step1]
    · simp [step1]
  have hstep3 : step1 0xe1 [b, x] = (none, []) := by
    rcases hb with rfl | rfl
    · simp [step1]
    · simp [step1]
  constructor
  · show translateFuel (0xe1 :: b :: x :: rest).length (0xe1 :: b :: x :: rest) =
      translateScan rest
    have hlen : (0xe1 :: b :: x :: rest).length = (rest.length + 2) + 1 := by simp
    rw [hlen, translateFuel_cons, hstep]
    show translateFuel (rest.length + 2) rest = translateScan rest
    rw [translateFuel_add rest.length 2 rest (le_refl _)]
    rfl
  · show translateFuel 3 [0xe1, b, x] = []
    rw [show (3 : Nat) = 2 + 1 from rfl, translateFuel_cons, hstep3]
    rfl

/-- Witness for the amended C3: `[0xE1, 0x1D, 0x45]` prefixed to a stream
is fully discarded, and as a complete input produces no output. -/
theorem pause_sequence_discarded_witness :
    translateScan [0xe1, 0x1d, 0x45, 0x1e] = translateScan [0x1e] ∧
    translateScan [0xe1, 0x1d, 0x45] = [] :=
  pause_sequence_discarded 0x1d 0x45 [0x1e] (Or.inl rfl)

/-- Claim C6: for a two-byte extended sequence `[0xE0, b]`, the translator
keeps `b` (emitting exactly it) when `b` is one of the eight allow-listed
navigation codes, and emits nothing for every other second byte. -/
theorem extended_code_allowlist :
    ∀ b, b < 256 →
    (b ∈ [0x50, 0xd0, 0x4d, 0xcd, 0x4b, 0xcb, 0x48, 0xc8] →
      translateScan [0xe0, b] = [b]) ∧
    (b ∉ [0x50, 0xd0, 0x4d, 0xcd, 0x4b, 0xcb, 0x48, 0xc8] →
      translateScan [0xe0, b] = []) := by
  decide

/-- Witness for C6: `[0xE0, 0x50]` passes through as one code, and
`[0xE0, 0x1C]` is discarded. -/
theorem extended_code_allowlist_witness :
    translateScan [0xe0, 0x50] = [0x50] ∧ translateScan [0xe0, 0x1c] = [] :=
  ⟨(extended_code_allowlist 0x50 (by decide)).1 (by decide),
   (extended_code_allowlist 0x1c (by decide)).2 (by decide)⟩

/-- Claim C7: a scan code byte (bare, or as the kept byte of an `0xE0`
sequence) whose low 7 bits are in the fixed discard table, or whose low 7
bits exceed 0x50, or whose value is exactly 0, produces no output code. -/
theorem discard_table_rejects :
    ∀ c, c < 256 →
    ((c &&& 0x7f) ∈ [15, 27, 29, 40, 41, 43, 55, 56, 58, 69, 70, 71, 73, 74, 76,
        78, 79, 81, 82, 83, 85, 91, 92, 93] ∨ 0x50 < c &&& 0x7f ∨ c = 0) →
    translateScan [c] = [] ∧ translateScan [0xe0, c] = [] := by
  decide

/-- Witness for C7: Tab (0x0F) produces no output under both break-bit
values (0x0F and 0x8F). -/
theorem discard_table_rejects_witness :
    (translateScan [0x0f] = [] ∧ translateScan [0xe0, 0x0f] = []) ∧
    (translateScan [0x8f] = [] ∧ translateScan [0xe0, 0x8f] = []) :=
  ⟨discard_table_rejects 0x0f (by decide) (by decide),
   discard_table_rejects 0x8f (by decide) (by decide)⟩

/-- Claim C8: a scan code whose low 7 bits equal 54 is remapped to code 42
with the break bit (bit 7) preserved. -/
theorem keypad_slash_remap :
    ∀ c, c < 256 → c &&& 0x7f = 54 → translateScan [c] = [(c &&& 0x80) + 42] := by
  decide

/-- Witness for C8: make code 0x36 maps to 0x2A and break code 0xB6 maps
to 0xAA. -/
theorem keypad_slash_remap_witness :
    translateScan [0x36] = [0x2a] ∧ translateScan [0xb6] = [0xaa] :=
  ⟨keypad_slash_remap 0x36 (by decide) (by decide),
   keypad_slash_remap 0xb6 (by decide) (by decide)⟩

/-- Busy-wait `do {} while (PINB & PS2_CLOCK);` — consume `PINB` samples
while the clock line reads high; the sample that reads low is consumed
too. `none` models a trace too short (the loop would spin forever). -/
def waitClockFall : List Nat → Option (List Nat)
  | [] => none
  | p :: t => if p &&& PS2_CLOCK = 0 then some t else waitClockFall t

/-- Busy-wait `do {} while (!(PINB & PS2_CLOCK));` — consume `PINB`
samples while the clock line reads low. -/
def waitClockRise : List Nat → Option (List Nat)
  | [] => none
  | p :: t => if p &&& PS2_CLOCK = 0 then waitClockRise t else some t

/-- The 10-iteration transmit loop of `ps2_send`: per iteration select the
next data bit (8 data bits LSB-first, then the odd-parity bit accumulated
from `ps2_tx_parity = 1`, then the stop bit 1), wait for the clock to fall,
drive the data line (recorded in the returned bit list), wait for the
clock to rise, then shift the byte. The fuel counts remaining iterations
of `while (ps2_tx_bit_count < 10)`. -/
def sendLoop : Nat → Nat → Nat → Nat → List Nat → Option (List Nat × List Nat)
  | 0, _, _, _, trace => some ([], trace)
  | fuel + 1, ps2_tx_bit_count, byte, ps2_tx_parity, trace =>
    let ps2_data_bit :=
      if ps2_tx_bit_count < 8 then byte &&& 0x01
      else if ps2_tx_bit_count = 8 then ps2_tx_parity &&& 0x01
      else 1
    let parity' :=
      if ps2_tx_bit_count < 8 then ps2_tx_parity + (byte &&& 0x01) else ps2_tx_parity
    match waitClockFall trace with
    | none => none
    | some t1 =>
      match waitClockRise t1 with
      | none => none
      | some t2 =>
        match sendLoop fuel (ps2_tx_bit_count + 1) (byte / 2) parity' t2 with
        | none => none
        | some (bits, t3) => some (ps2_data_bit :: bits, t3)

/-- `ps2_send(byte)` over a trace of `PINB` samples: clock out the 10-bit
frame, wait for the clock to fall for the acknowledge, read one fresh
`PINB` sample and compute `result = -1 * (PINB & PS2_DATA)`, wait for the
clock to return high, and return the result (with the unconsumed trace).
The request-to-send line driving and the delays touch no returned state. -/
def ps2_send (byte : Nat) (trace : List Nat) : Option (Int × List Nat) :=
  (sendLoop 10 0 byte 1 trace).bind (fun p =>
    (waitClockFall p.2).bind (fun t2 =>
      t2.head?.bind (fun s =>
        (waitClockRise t2.tail).bind (fun t4 =>
          some (-1 * Int.ofNat (s &&& PS2_DATA), t4)))))

/-- The `PINB` sample `ps2_send` reads at its acknowledge check (the fresh
read after the post-frame wait for the clock to fall). -/
def ackSample (byte : Nat) (trace : List Nat) : Option Nat :=
  (sendLoop 10 0 byte 1 trace).bind (fun p =>
    (waitClockFall p.2).bind (fun t2 => t2.head?))

/-- Claim C9: whenever `ps2_send` returns, its result is 0 or negative;
it is negative exactly when the data line read high (keyboard failed to
pull it low for the acknowledge) at the acknowledge sample, and 0 exactly
when that sample read the data line low. -/
theorem ps2_send_ack (byte : Nat) (trace : List Nat) (r : Int) (rest : List Nat)
    (h : ps2_send byte trace = some (r, rest)) :
    ∃ s, ackSample byte trace = some s ∧
      (r < 0 ↔ s &&& PS2_DATA ≠ 0) ∧
      (r = 0 ↔ s &&& PS2_DATA = 0) ∧
      (r = 0 ∨ r < 0) := by
  unfold ps2_send at h
  rw [Option.bind_eq_some] at h
  obtain ⟨p, h1, h⟩ := h
  rw [Option.bind_eq_some] at h
  obtain ⟨t2, h2, h⟩ := h
  rw [Option.bind_eq_some] at h
  obtain ⟨s, hs, h⟩ := h
  rw [Option.bind_eq_some] at h
  obtain ⟨t4, h4, h⟩ := h
  simp only [Option.some.injEq, Prod.mk.injEq] at h
  obtain ⟨hr, _⟩ := h
  have hr' : r = -((s &&& PS2_DATA : Nat) : Int) := by
    rw [← hr, Int.ofNat_eq_natCast]
    ring
  refine ⟨s, ?_, ?_, ?_, ?_⟩
  · unfold ackSample
    rw [h1, Option.some_bind, h2, Option.some_bind, hs]
  · rw [hr']
    omega
  · rw [hr']
    omega
  · rw [hr']
    omega

/-- Witness for C9: a trace that clocks out the frame for byte 0 and then
presents the data line high (sample 16) at the acknowledge check, making
`ps2_send` fail with a negative result. -/
theorem ps2_send_ack_witness :
    ∃ s, ackSample 0 [0, 8, 0, 8, 0, 8, 0, 8, 0, 8, 0, 8, 0, 8, 0, 8, 0, 8, 0, 8,
        0, 16, 8] = some s ∧
      ((-16 : Int) < 0 ↔ s &&& PS2_DATA ≠ 0) ∧
      ((-16 : Int) = 0 ↔ s &&& PS2_DATA = 0) ∧
      ((-16 : Int) = 0 ∨ (-16 : Int) < 0) :=
  ps2_send_ack 0 [0, 8, 0, 8, 0, 8, 0, 8, 0, 8, 0, 8, 0, 8, 0, 8, 0, 8, 0, 8,
    0, 16, 8] (-16) [] (by decide)

/-- `kbd_code_set(set)` with the keyboard's blocking response stream made
explicit: each `ps2_recv_x()` consumes the next byte of `resp`, and each
`ps2_send` transmit is recorded in the returned send log. With
`set < 1 || set > 3` it returns `PS2_KH_RESEND` immediately, transmitting
nothing and consuming nothing; otherwise it sends `PS2_HK_ALTCODE`, reads
the response, and only on `PS2_KH_ACK` sends the set id `(uint8_t)set`
and reads the final response. `none` models blocking forever on an
exhausted response stream. -/
def kbd_code_set (set : Int) (resp : List Nat) : Option (Int × List Nat × List Nat) :=
  if set < 1 ∨ 3 < set then
    some (Int.ofNat PS2_KH_RESEND, [], resp)
  else
    match resp with
    | [] => none
    | r1 :: rest =>
      if r1 = PS2_KH_ACK then
        match rest with
        | [] => none
        | r2 :: rest2 =>
          some (Int.ofNat r2, [PS2_HK_ALTCODE, set.toNat % 256], rest2)
      else
        some (Int.ofNat r1, [PS2_HK_ALTCODE], rest)

/-- Claim C10: for `set < 1` or `set > 3`, `kbd_code_set` returns the
resend code 0xFE immediately, transmits no byte, and consumes nothing
from the response stream; conversely, whenever any byte is transmitted,
`set` was in `{1, 2, 3}`. -/
theorem kbd_code_set_range (set : Int) (resp : List Nat)
    (hout : set < 1 ∨ 3 < set) :
    (kbd_code_set set resp = some (0xfe, [], resp)) ∧
    (∀ (set' : Int) (resp' : List Nat) (r' : Int) (sends' rem' : List Nat),
      kbd_code_set set' resp' = some (r', sends', rem') → sends' ≠ [] →
      1 ≤ set' ∧ set' ≤ 3) := by
  constructor
  · unfold kbd_code_set
    rw [if_pos hout]
    rfl
  · intro set' resp' r' sends' rem' hrun' hsends
    by_cases hin : set' < 1 ∨ 3 < set'
    · unfold kbd_code_set at hrun'
      rw [if_pos hin] at hrun'
      simp only [Option.some.injEq, Prod.mk.injEq] at hrun'
      obtain ⟨_, hs, _⟩ := hrun'
      exact absurd hs.symm hsends
    · push_neg at hin
      omega

/-- Witness for C10: `set = 0` is rejected with 0xFE, no transmission, and
an untouched response stream. -/
theorem kbd_code_set_range_witness :
    (kbd_code_set 0 [0xfa, 0xfa] = some (0xfe, [], [0xfa, 0xfa])) ∧
    (∀ (set' : Int) (resp' : List Nat) (r' : Int) (sends' rem' : List Nat),
      kbd_code_set set' resp' = some (r', sends', rem') → sends' ≠ [] →
      1 ≤ set' ∧ set' ≤ 3) :=
  kbd_code_set_range 0 [0xfa, 0xfa] (Or.inl (by decide))
